import Mathlib

/-!
# cdojo: a shallow embedding of the chat relay (`server.go`, `message.go`)

The Go program keeps a set of `*serverClient` pointers in `Server.clients`
under `Server.mu`.  Here a pointer is a natural number, the objects it points
to live in `Server.heap`, and `Server.next` is the next address the allocator
hands out.  Every function below is the body of the Go function of the same
name, run atomically (each of them holds `srv.mu` for its whole body, except
the two goroutine loops `reader` and `writer`, which are modelled as the
sequence of operations they perform, and `startClient`, whose critical
section is `Server.startClient` and whose sends after the unlock are
`Server.joinSend`).

A Go panic (send on a closed channel, close of a closed channel) is `none`.
-/

namespace Cdojo

/-! ## message.go -/

/-- Go `type Kind string`. -/
abbrev Kind := String

def KindUser : Kind := "user"
def KindConnect : Kind := "connect"
def KindText : Kind := "text"
def KindDisconnect : Kind := "disconnect"

/-- Go `type Message struct`. -/
structure Message where
  Kind : Cdojo.Kind
  Id : String
  Name : String
  Addr : String
  Text : String
deriving DecidableEq, Repr

/-- The zero value `Message{}`. -/
instance : Inhabited Message := ⟨⟨"", "", "", "", ""⟩⟩

/-! ## server.go: data -/

/-- A `*serverClient`. -/
abbrev Ptr := Nat

/-- What the server uses of a `net.Conn`: its remote address and whether
`Close` has been called on it. -/
structure Conn where
  remoteAddr : String
  closed : Bool
deriving DecidableEq, Repr

/-- A `chan Message`: the buffered messages, oldest first, and whether the
channel has been closed.  A closed channel keeps its buffered messages. -/
structure Chan where
  buf : List Message
  closed : Bool
deriving DecidableEq, Repr

/-- The capacity in `make(chan Message, 100)`, the only place a `send`
channel is made. -/
def sendCapacity : Nat := 100

/-- Go `type serverClient struct` (without `srv`, there is one server, and
without the mutex). -/
structure serverClient where
  conn : Conn
  closed : Bool
  send : Chan
  id : String
  addr : String
  name_ : String
deriving DecidableEq, Repr

instance : Inhabited serverClient :=
  ⟨⟨⟨"", false⟩, false, ⟨[], false⟩, "", "", ""⟩⟩

/-- Go `type Server struct` together with the memory its pointers refer to.
`clients` lists the keys of the Go map in the order `range` visits them. -/
structure Server where
  clients : List Ptr
  heap : Ptr → serverClient
  next : Ptr

/-- The server `NewServer` returns: no clients, nothing allocated. -/
def Server.new : Server := ⟨[], fun _ => default, 0⟩

/-- Go `m[k] = struct{}{}` on the key list of a map. -/
def mapInsert (l : List Ptr) (k : Ptr) : List Ptr :=
  if k ∈ l then l else l ++ [k]

/-- Go `delete(m, k)` on the key list of a map. -/
def mapDelete (l : List Ptr) (k : Ptr) : List Ptr :=
  l.filter (fun x => x ≠ k)

/-! ## server.go: the operations under `srv.mu` -/

/-- Method `c.setName(name)`. -/
def Server.setName (srv : Server) (c : Ptr) (name : String) : Server :=
  { srv with heap := Function.update srv.heap c { srv.heap c with name_ := name } }

/-- The loop of `startClient` that fills `joinMessages`: one `append` per
key of `srv.clients`; `c.name()` reads `name_`. -/
def joinLoop (heap : Ptr → serverClient) (clients : List Ptr)
    (joinMessages : List Message) : List Message :=
  clients.foldl
    (fun jm c => jm ++ [⟨KindUser, (heap c).id, (heap c).name_, (heap c).addr, ""⟩])
    joinMessages

/-- Function `startClient` up to `srv.mu.Unlock()`: allocate the client, compute
`joinMessages`, insert the client into `srv.clients`.  `newId` is the value
of `newId()`.  Returns the new server, the new pointer and `joinMessages`. -/
def Server.startClient (srv : Server) (conn : Conn) (newId : String) :
    Server × Ptr × List Message :=
  let client : Ptr := srv.next
  let obj : serverClient :=
    { conn := conn, closed := false, send := ⟨[], false⟩, id := newId,
      addr := conn.remoteAddr, name_ := "" }
  let heap := Function.update srv.heap client obj
  -- joinMessages := make([]Message, len(srv.clients))
  let joinMessages := joinLoop srv.heap srv.clients
    (List.replicate srv.clients.length default)
  ({ clients := mapInsert srv.clients client, heap := heap, next := srv.next + 1 },
    client, joinMessages)

/-- Go `select { case ch <- msg: default: }`: a send on a closed channel
panics, a send on a full channel is dropped. -/
def Chan.trySend (ch : Chan) (msg : Message) : Option Chan :=
  if ch.closed then none
  else if ch.buf.length < sendCapacity then some { ch with buf := ch.buf ++ [msg] }
  else some ch

/-- The `for c := range srv.clients` loop of `Server.sendAll`. -/
def sendAllLoop (client : Option Ptr) (msg : Message) :
    List Ptr → (Ptr → serverClient) → Option (Ptr → serverClient)
  | [], heap => some heap
  | c :: cs, heap =>
    if some c = client then sendAllLoop client msg cs heap
    else
      match (heap c).send.trySend msg with
      | none => none
      | some ch =>
        sendAllLoop client msg cs (Function.update heap c { heap c with send := ch })

/-- Method `srv.sendAll(client, msg)`; `client = none` is the nil pointer. -/
def Server.sendAll (srv : Server) (client : Option Ptr) (msg : Message) : Option Server :=
  (sendAllLoop client msg srv.clients srv.heap).map (fun h => { srv with heap := h })

/-- Method `c.sendAll(msg)`: it calls `c.srv.sendAll(nil, msg)`. -/
def Server.clientSendAll (srv : Server) (_c : Ptr) (msg : Message) : Option Server :=
  srv.sendAll none msg

/-- Method `c.close()`. -/
def Server.close (srv : Server) (c : Ptr) : Option Server :=
  if (srv.heap c).closed then some srv
  else if (srv.heap c).send.closed then none
  else
    some { srv with
      heap := Function.update srv.heap c
        { srv.heap c with
          closed := true,
          send := { (srv.heap c).send with closed := true },
          conn := { (srv.heap c).conn with closed := true } }
      clients := mapDelete srv.clients c }

/-- One receive `<-c.send` by the writer of `c`: the oldest buffered message
leaves the channel (nothing happens when the buffer is empty). -/
def Server.recv (srv : Server) (c : Ptr) : Server :=
  { srv with
    heap := Function.update srv.heap c
      { srv.heap c with send := { (srv.heap c).send with buf := (srv.heap c).send.buf.tail } } }

/-- One `client.send <- m` of `startClient`, lines 79-81, which run after
`srv.mu.Unlock()` and after `go client.writer()`: a blocking send.  On a
closed channel it panics; on a full channel it stays blocked (the state is
unchanged); otherwise the message goes to the tail of the buffer. -/
def Server.joinSend (srv : Server) (client : Ptr) (m : Message) : Option Server :=
  if (srv.heap client).send.closed then none
  else if (srv.heap client).send.buf.length < sendCapacity then
    some { srv with
      heap := Function.update srv.heap client
        { srv.heap client with
          send := { (srv.heap client).send with buf := (srv.heap client).send.buf ++ [m] } } }
  else some srv

/-- The exported `srv.SendAll(msg)`: "SendAll sends a message to all currently
connected clients". -/
def Server.SendAll (srv : Server) (msg : Message) : Option Server :=
  srv.sendAll none msg

/-! ## server.go: `reader` -/

/-- What `dec.Decode(&m)` returns: a message, `io.EOF`, or another error. -/
inductive Decoded where
  | msg (m : Message)
  | eof
  | err
deriving DecidableEq, Repr

/-- The `for` loop of `reader`, lines 109-129.  The loop has no `break`: it
only leaves through `return`, so the `c.sendAll(Message{Kind: KindDisconnect, ...})`
written after it is never run and has no counterpart here.  An exhausted
input is the end of the stream. -/
def readerLoop (c : Ptr) (name : String) : Server → List Decoded → Option Server
  | srv, [] => some srv
  | srv, Decoded.eof :: _ => some srv
  | srv, Decoded.err :: _ => some srv
  | srv, Decoded.msg m :: rest =>
    if m.Kind ≠ KindText then readerLoop c name srv rest
    else
      match srv.clientSendAll c ⟨KindText, (srv.heap c).id, name, "", m.Text⟩ with
      | none => none
      | some srv1 => readerLoop c name srv1 rest

/-- Lines 98-108 of `reader`: choose the name, `setName`, announce. -/
def readerConnect (srv : Server) (c : Ptr) (initialMessage : Message) :
    Option (Server × String) :=
  let addr := (srv.heap c).conn.remoteAddr
  let name := if initialMessage.Name = "" then (srv.heap c).id else initialMessage.Name
  let srv1 := srv.setName c name
  match srv1.clientSendAll c ⟨KindConnect, (srv1.heap c).id, name, addr, ""⟩ with
  | none => none
  | some srv2 => some (srv2, name)

/-- The body of `reader` before the deferred `c.close()`. -/
def readerBody (srv : Server) (c : Ptr) : List Decoded → Option Server
  | [] => some srv
  | Decoded.eof :: _ => some srv
  | Decoded.err :: _ => some srv
  | Decoded.msg initialMessage :: rest =>
    if initialMessage.Kind ≠ KindConnect then some srv
    else
      match readerConnect srv c initialMessage with
      | none => none
      | some (srv2, name) => readerLoop c name srv2 rest

/-- Method `c.reader()` on the decoded input `input`: the body, then the deferred
`c.close()`. -/
def Server.reader (srv : Server) (c : Ptr) (input : List Decoded) : Option Server :=
  match readerBody srv c input with
  | none => none
  | some srv1 => srv1.close c

/-! ## server.go: `writer` -/

/-- What the writer has produced when it returns: `flushed` holds, for each
`w.Flush()` that ran, the messages encoded since the previous one; `pending`
holds the messages encoded into the `bufio.Writer` that no `Flush` followed. -/
structure Written where
  flushed : List (List Message)
  pending : List Message
deriving DecidableEq, Repr

/-- Every message handed to `enc.Encode`, in order. -/
def Written.encoded (w : Written) : List Message := w.flushed.flatten ++ w.pending

/-- Method `c.writer()`, with every `enc.Encode` and `w.Flush` succeeding.

* `queue` is what is still to come out of `c.send` before it is closed.
* `m = none`: the writer is at `for m := range c.send`, a blocking receive;
  `m = some x`: it is at the test of `for m.Kind != ""` with `m = x`.
* `ready` says, for each `select` the writer runs, whether the next thing in
  the channel (a message, or the close once `queue` is empty) is already
  there; when it is not, the `default` branch runs.  An exhausted `ready`
  counts as "not there".
* `buf` holds the messages encoded since the last flush. -/
def writerLoop : List Message → Option Message → List Bool → List Message →
    List (List Message) → Written
  | [], none, _, buf, flushed => ⟨flushed, buf⟩
  | x :: queue, none, ready, buf, flushed => writerLoop queue (some x) ready buf flushed
  | queue, some m, ready, buf, flushed =>
    if m.Kind = "" then
      -- w.Flush(), back to the range loop
      writerLoop queue none ready [] (flushed ++ [buf])
    else
      -- enc.Encode(m), then the select
      match ready, _hq : queue with
      | true :: _, [] => ⟨flushed, buf ++ [m]⟩
      | true :: ready1, x :: queue1 => writerLoop queue1 (some x) ready1 (buf ++ [m]) flushed
      | false :: ready1, _ =>
        writerLoop queue (some { m with Kind := "" }) ready1 (buf ++ [m]) flushed
      | [], _ => writerLoop queue (some { m with Kind := "" }) [] (buf ++ [m]) flushed
termination_by queue m => 3 * queue.length + (match m with
  | none => 0
  | some x => if x.Kind = "" then 1 else 2)
decreasing_by
  all_goals simp_wf
  all_goals (try subst _hq)
  all_goals (try split)
  all_goals (try simp_all)
  all_goals omega

/-- Method `c.writer()` on the messages `queue` followed by the close of `c.send`. -/
def writer (queue : List Message) (ready : List Bool) : Written :=
  writerLoop queue none ready [] []

/-! ## The relay as a transition system -/

/-- The operations that change the shared state. -/
inductive Action where
  | startClient (conn : Conn) (newId : String)
  | sendAll (client : Option Ptr) (msg : Message)
  | close (c : Ptr)
  | recv (c : Ptr)
  | setName (c : Ptr) (name : String)
deriving DecidableEq, Repr

/-- One operation; `none` is a panic. -/
def Server.step (srv : Server) : Action → Option Server
  | Action.startClient conn newId => some (srv.startClient conn newId).1
  | Action.sendAll client msg => srv.sendAll client msg
  | Action.close c => srv.close c
  | Action.recv c => some (srv.recv c)
  | Action.setName c name => some (srv.setName c name)

/-- The states the relay can be in. -/
inductive Reachable : Server → Prop where
  | new : Reachable Server.new
  | step {srv srv1 : Server} (a : Action) :
      Reachable srv → srv.step a = some srv1 → Reachable srv1

/-- Everything that changes a queue: the operations above and the sends of
`joinMessages` that `startClient` does after the unlock. -/
inductive Op where
  | act (a : Action)
  | joinSend (client : Ptr) (m : Message)
deriving DecidableEq, Repr

/-- One operation; `none` is a panic. -/
def Server.stepOp (srv : Server) : Op → Option Server
  | Op.act a => srv.step a
  | Op.joinSend client m => srv.joinSend client m

/-- The operations of `ops`, one after the other, up to the first panic:
the state reached, and whether a panic stopped the run. -/
def Server.runOps : Server → List Op → Server × Bool
  | srv, [] => (srv, false)
  | srv, o :: ops =>
    match srv.stepOp o with
    | none => (srv, true)
    | some srv1 => srv1.runOps ops

/-- The operations of one call of `startClient`: the critical section, then
one send per element of `joinMessages` into the new client's queue. -/
def Server.startClientOps (srv : Server) (conn : Conn) (newId : String) : List Op :=
  Op.act (Action.startClient conn newId) ::
    (srv.startClient conn newId).2.2.map (Op.joinSend (srv.startClient conn newId).2.1)

/-- Where a queued message comes from: a send of `joinMessages` by
`startClient`, or a broadcast by `sendAll`. -/
inductive Origin where
  | presence
  | broadcast
deriving DecidableEq, Repr

/-- The message the writer of `p` takes out of `p.send` in operation `o`. -/
def Server.taken (srv : Server) (p : Ptr) : Op → List Message
  | Op.act (Action.recv c) => if c = p then (srv.heap p).send.buf.head?.toList else []
  | _ => []

/-- The messages the writer of `p` takes out of `p.send` during `ops`. -/
def Server.received (p : Ptr) : Server → List Op → List Message
  | _, [] => []
  | srv, o :: ops =>
    srv.taken p o ++
      (match srv.stepOp o with
       | none => []
       | some srv1 => Server.received p srv1 ops)

/-- The messages of the broadcasts in `ops`, in the order they are issued. -/
def issued : List Op → List Message
  | [] => []
  | Op.act (Action.sendAll _ msg) :: ops => msg :: issued ops
  | _ :: ops => issued ops

/-- The message operation `o` offers to `p`: the message of a broadcast
issued while `p` is registered and not the excluded client, or the message
of a send of `joinMessages` into the queue of `p`. -/
def Server.offer (srv : Server) (p : Ptr) : Op → List (Origin × Message)
  | Op.act (Action.sendAll client msg) =>
    if p ∈ srv.clients ∧ some p ≠ client then [(Origin.broadcast, msg)] else []
  | Op.joinSend client m => if client = p then [(Origin.presence, m)] else []
  | _ => []

/-- The messages offered to `p` during `ops`, in the order of the
operations. -/
def Server.offered (p : Ptr) : Server → List Op → List (Origin × Message)
  | _, [] => []
  | srv, o :: ops =>
    srv.offer p o ++
      (match srv.stepOp o with
       | none => []
       | some srv1 => Server.offered p srv1 ops)

/-- The entries of a list of offered messages that are broadcasts. -/
def broadcastsOf (l : List (Origin × Message)) : List Message :=
  (l.filter (fun x => decide (x.1 = Origin.broadcast))).map Prod.snd

/-- The registry invariant: the keys of `clients` are distinct and
allocated, a registered client is not closed, and the channel of a client
that is not closed is open. -/
structure Inv (srv : Server) : Prop where
  nodup : srv.clients.Nodup
  alloc : ∀ p ∈ srv.clients, p < srv.next
  open_ : ∀ p ∈ srv.clients, (srv.heap p).closed = false
  chan : ∀ p, (srv.heap p).closed = false → (srv.heap p).send.closed = false

/-- What a broadcast does to one recipient: the message goes to the tail of
its channel when there is room. -/
def deliver (s : serverClient) (msg : Message) : serverClient :=
  if s.send.buf.length < sendCapacity then
    { s with send := { s.send with buf := s.send.buf ++ [msg] } }
  else s

/-! ## Concrete states used below -/

/-- A connection from `addr`. -/
def connFrom (addr : String) : Conn := ⟨addr, false⟩

/-- One client (pointer 0), registered, its first message not read yet. -/
def srvOne : Server := (Server.new.startClient (connFrom "10.0.0.1:4000") "id-a").1

/-- One client, `alice`, registered and named. -/
def srvAlice : Server := srvOne.setName 0 "alice"

/-- Two clients: `alice` (pointer 0, named) and a second one (pointer 1)
that has not sent its first message yet. -/
def srvTwo : Server := (srvAlice.startClient (connFrom "10.0.0.2:4000") "id-b").1

/-- A whole call of `startClient` for a second connection in `srvAlice`
(critical section, then the sends of `joinMessages`), followed by two
receives of the new client's writer. -/
def opsJoin : List Op :=
  srvAlice.startClientOps (connFrom "10.0.0.2:4000") "id-b" ++
    [Op.act (Action.recv 1), Op.act (Action.recv 1)]

/-- In `srvTwo`: a broadcast to everyone, a presence message sent to client
0, a receive by the writer of client 0, a broadcast to everyone but client
1. -/
def opsDemo : List Op :=
  [Op.act (Action.sendAll none ⟨KindText, "id-b", "bob", "", "a"⟩),
    Op.joinSend 0 ⟨KindUser, "id-b", "bob", "10.0.0.2:4000", ""⟩,
    Op.act (Action.recv 0),
    Op.act (Action.sendAll (some 1) ⟨KindText, "id-b", "bob", "", "b"⟩)]

/-! ## Lemmas on the operations -/

theorem mem_mapDelete {l : List Ptr} {k p : Ptr} : p ∈ mapDelete l k ↔ p ∈ l ∧ p ≠ k := by
  simp [mapDelete]

theorem nodup_mapDelete {l : List Ptr} (k : Ptr) (h : l.Nodup) : (mapDelete l k).Nodup :=
  h.filter _

theorem mem_mapInsert {l : List Ptr} {k p : Ptr} : p ∈ mapInsert l k ↔ p ∈ l ∨ p = k := by
  unfold mapInsert
  split
  · constructor
    · intro h; exact Or.inl h
    · rintro (h | rfl)
      · exact h
      · assumption
  · simp

theorem nodup_mapInsert {l : List Ptr} (k : Ptr) (h : l.Nodup) : (mapInsert l k).Nodup := by
  unfold mapInsert
  split
  · exact h
  · rename_i hk
    rw [List.nodup_append]
    refine ⟨h, List.nodup_singleton k, ?_⟩
    intro a ha hb
    simp at hb
    subst hb
    exact hk ha

theorem joinLoop_eq (heap : Ptr → serverClient) (clients : List Ptr) (jm : List Message) :
    joinLoop heap clients jm =
      jm ++ clients.map
        (fun c => (⟨KindUser, (heap c).id, (heap c).name_, (heap c).addr, ""⟩ : Message)) := by
  unfold joinLoop
  induction clients generalizing jm with
  | nil => simp
  | cons c cs ih => simp [List.foldl_cons, ih]

theorem deliver_buf_of_room {s : serverClient} (msg : Message)
    (h : s.send.buf.length < sendCapacity) : (deliver s msg).send.buf = s.send.buf ++ [msg] := by
  simp [deliver, h]

theorem deliver_of_full {s : serverClient} (msg : Message)
    (h : sendCapacity ≤ s.send.buf.length) : deliver s msg = s := by
  simp [deliver, Nat.not_lt.mpr h]

theorem trySend_open {s : serverClient} (msg : Message) (h : s.send.closed = false) :
    s.send.trySend msg = some (deliver s msg).send := by
  unfold Chan.trySend deliver
  by_cases hl : s.send.buf.length < sendCapacity
  · simp [h, hl]
  · simp [h, hl]

theorem deliver_eq_with {s : serverClient} (msg : Message) :
    { s with send := (deliver s msg).send } = deliver s msg := by
  unfold deliver
  split <;> rfl

/-- The range loop of `sendAll` over distinct keys with open channels: every
key other than the excluded one gets `deliver`, nothing else changes. -/
theorem sendAllLoop_spec (client : Option Ptr) (msg : Message) :
    ∀ (cs : List Ptr) (heap : Ptr → serverClient), cs.Nodup →
      (∀ c ∈ cs, (heap c).send.closed = false) →
      sendAllLoop client msg cs heap =
        some (fun p => if p ∈ cs ∧ some p ≠ client then deliver (heap p) msg else heap p) := by
  intro cs
  induction cs with
  | nil => intro heap _ _; simp [sendAllLoop]
  | cons c cs ih =>
    intro heap hnd hopen
    have hc : c ∉ cs := (List.nodup_cons.mp hnd).1
    have hnd1 : cs.Nodup := (List.nodup_cons.mp hnd).2
    by_cases hex : some c = client
    · rw [sendAllLoop, if_pos hex, ih heap hnd1 (fun x hx => hopen x (List.mem_cons_of_mem _ hx))]
      congr 1
      funext p
      by_cases hp : p = c
      · subst hp
        simp [hex, hc]
      · simp [hp]
    · rw [sendAllLoop, if_neg hex, trySend_open msg (hopen c (List.mem_cons_self _ _))]
      simp only [deliver_eq_with]
      rw [ih]
      · congr 1
        funext p
        by_cases hp : p = c
        · subst hp
          simp [hex, hc]
        · simp [hp, Function.update_noteq hp]
      · exact hnd1
      · intro x hx
        have hxc : x ≠ c := fun h => hc (h ▸ hx)
        rw [Function.update_noteq hxc]
        exact hopen x (List.mem_cons_of_mem _ hx)

theorem sendAll_spec (srv : Server) (hinv : Inv srv) (client : Option Ptr) (msg : Message) :
    srv.sendAll client msg =
      some { srv with
        heap := fun p =>
          if p ∈ srv.clients ∧ some p ≠ client then deliver (srv.heap p) msg else srv.heap p } := by
  unfold Server.sendAll
  rw [sendAllLoop_spec client msg srv.clients srv.heap hinv.nodup
    (fun c hc => hinv.chan c (hinv.open_ c hc))]
  rfl

@[simp] theorem deliver_closed (s : serverClient) (msg : Message) :
    (deliver s msg).closed = s.closed := by
  unfold deliver; split <;> rfl

@[simp] theorem deliver_send_closed (s : serverClient) (msg : Message) :
    (deliver s msg).send.closed = s.send.closed := by
  unfold deliver; split <;> rfl

@[simp] theorem deliver_name (s : serverClient) (msg : Message) :
    (deliver s msg).name_ = s.name_ := by
  unfold deliver; split <;> rfl

@[simp] theorem deliver_id (s : serverClient) (msg : Message) :
    (deliver s msg).id = s.id := by
  unfold deliver; split <;> rfl

@[simp] theorem deliver_conn (s : serverClient) (msg : Message) :
    (deliver s msg).conn = s.conn := by
  unfold deliver; split <;> rfl

/-! ## The invariant is kept by every operation -/

theorem inv_new : Inv Server.new :=
  ⟨List.nodup_nil, fun _ h => absurd h (List.not_mem_nil _), fun _ h => absurd h (List.not_mem_nil _),
    fun _ _ => rfl⟩

theorem inv_startClient {srv : Server} (h : Inv srv) (conn : Conn) (newId : String) :
    Inv (srv.startClient conn newId).1 := by
  have hfresh : srv.next ∉ srv.clients := fun hm => Nat.lt_irrefl _ (h.alloc _ hm)
  refine ⟨nodup_mapInsert _ h.nodup, ?_, ?_, ?_⟩
  · intro p hp
    rcases mem_mapInsert.mp hp with hp | hp
    · exact Nat.lt_succ_of_lt (h.alloc p hp)
    · subst hp
      exact Nat.lt_succ_self _
  · intro p hp
    show (Function.update srv.heap srv.next _ p).closed = false
    rcases mem_mapInsert.mp hp with hp | hp
    · have hne : p ≠ srv.next := fun e => hfresh (e ▸ hp)
      rw [Function.update_noteq hne]
      exact h.open_ p hp
    · subst hp
      rw [Function.update_same]
  · intro p
    show (Function.update srv.heap srv.next _ p).closed = false →
      (Function.update srv.heap srv.next _ p).send.closed = false
    by_cases hp : p = srv.next
    · subst hp
      rw [Function.update_same]
      intro _; rfl
    · rw [Function.update_noteq hp]
      exact h.chan p

theorem inv_sendAll {srv : Server} (h : Inv srv) (client : Option Ptr) (msg : Message) :
    ∃ srv1, srv.sendAll client msg = some srv1 ∧ Inv srv1 ∧ srv1.next = srv.next := by
  refine ⟨_, sendAll_spec srv h client msg, ⟨h.nodup, h.alloc, ?_, ?_⟩, rfl⟩
  · intro p hp
    show (if p ∈ srv.clients ∧ some p ≠ client then deliver (srv.heap p) msg
      else srv.heap p).closed = false
    split
    · rw [deliver_closed]; exact h.open_ p hp
    · exact h.open_ p hp
  · intro p
    show (if p ∈ srv.clients ∧ some p ≠ client then deliver (srv.heap p) msg
      else srv.heap p).closed = false →
      (if p ∈ srv.clients ∧ some p ≠ client then deliver (srv.heap p) msg
      else srv.heap p).send.closed = false
    split
    · rw [deliver_closed, deliver_send_closed]; exact h.chan p
    · exact h.chan p

/-- What `close` returns on a client that is not closed yet. -/
theorem close_of_open {srv : Server} (h : Inv srv) (c : Ptr) (hc : (srv.heap c).closed = false) :
    srv.close c = some { srv with
      heap := Function.update srv.heap c
        { srv.heap c with
          closed := true,
          send := { (srv.heap c).send with closed := true },
          conn := { (srv.heap c).conn with closed := true } }
      clients := mapDelete srv.clients c } := by
  unfold Server.close
  simp [hc, h.chan c hc]

theorem close_of_closed (srv : Server) (c : Ptr) (hc : (srv.heap c).closed = true) :
    srv.close c = some srv := by
  unfold Server.close
  simp [hc]

theorem inv_close {srv : Server} (h : Inv srv) (c : Ptr) :
    ∃ srv1, srv.close c = some srv1 ∧ Inv srv1 ∧ srv1.next = srv.next := by
  by_cases hc : (srv.heap c).closed = true
  · exact ⟨srv, close_of_closed srv c hc, h, rfl⟩
  · have hc0 : (srv.heap c).closed = false := by simpa using hc
    refine ⟨_, close_of_open h c hc0, ⟨nodup_mapDelete c h.nodup, ?_, ?_, ?_⟩, rfl⟩
    · intro p hp
      exact h.alloc p (mem_mapDelete.mp hp).1
    · intro p hp
      obtain ⟨hp1, hp2⟩ := mem_mapDelete.mp hp
      show (Function.update srv.heap c _ p).closed = false
      rw [Function.update_noteq hp2]
      exact h.open_ p hp1
    · intro p
      show (Function.update srv.heap c _ p).closed = false →
        (Function.update srv.heap c _ p).send.closed = false
      by_cases hp : p = c
      · subst hp
        rw [Function.update_same]
        intro hf
        cases hf
      · rw [Function.update_noteq hp]
        exact h.chan p

theorem inv_recv {srv : Server} (h : Inv srv) (c : Ptr) : Inv (srv.recv c) := by
  refine ⟨h.nodup, h.alloc, ?_, ?_⟩
  · intro p hp
    show (Function.update srv.heap c _ p).closed = false
    by_cases hpc : p = c
    · subst hpc
      rw [Function.update_same]
      exact h.open_ p hp
    · rw [Function.update_noteq hpc]
      exact h.open_ p hp
  · intro p
    show (Function.update srv.heap c _ p).closed = false →
      (Function.update srv.heap c _ p).send.closed = false
    by_cases hpc : p = c
    · subst hpc
      rw [Function.update_same]
      exact h.chan p
    · rw [Function.update_noteq hpc]
      exact h.chan p

theorem inv_setName {srv : Server} (h : Inv srv) (c : Ptr) (name : String) :
    Inv (srv.setName c name) := by
  refine ⟨h.nodup, h.alloc, ?_, ?_⟩
  · intro p hp
    show (Function.update srv.heap c _ p).closed = false
    by_cases hpc : p = c
    · subst hpc
      rw [Function.update_same]
      exact h.open_ p hp
    · rw [Function.update_noteq hpc]
      exact h.open_ p hp
  · intro p
    show (Function.update srv.heap c _ p).closed = false →
      (Function.update srv.heap c _ p).send.closed = false
    by_cases hpc : p = c
    · subst hpc
      rw [Function.update_same]
      exact h.chan p
    · rw [Function.update_noteq hpc]
      exact h.chan p

/-- No operation panics in a state that satisfies the invariant, and the
invariant holds afterwards. -/
theorem inv_step {srv : Server} (h : Inv srv) (a : Action) :
    ∃ srv1, srv.step a = some srv1 ∧ Inv srv1 ∧ srv.next ≤ srv1.next := by
  cases a with
  | startClient conn newId =>
    exact ⟨_, rfl, inv_startClient h conn newId, Nat.le_succ _⟩
  | sendAll client msg =>
    obtain ⟨srv1, h1, h2, h3⟩ := inv_sendAll h client msg
    exact ⟨srv1, h1, h2, h3 ▸ Nat.le_refl _⟩
  | close c =>
    obtain ⟨srv1, h1, h2, h3⟩ := inv_close h c
    exact ⟨srv1, h1, h2, h3 ▸ Nat.le_refl _⟩
  | recv c => exact ⟨_, rfl, inv_recv h c, Nat.le_refl _⟩
  | setName c name => exact ⟨_, rfl, inv_setName h c name, Nat.le_refl _⟩

theorem reachable_inv {srv : Server} (h : Reachable srv) : Inv srv := by
  induction h with
  | new => exact inv_new
  | step a _ hstep ih =>
    obtain ⟨srv2, h1, h2, _⟩ := inv_step ih a
    rw [hstep] at h1
    cases h1
    exact h2

/-! ## C1: the presence snapshot -/

/-- The list `startClient` computes: `len(srv.clients)` zero messages (from
`make([]Message, len(srv.clients))`) followed by one `user` message per
registered client. -/
theorem startClient_joinMessages (srv : Server) (conn : Conn) (newId : String) :
    (srv.startClient conn newId).2.2 =
      List.replicate srv.clients.length (default : Message) ++
        srv.clients.map (fun c =>
          (⟨KindUser, (srv.heap c).id, (srv.heap c).name_, (srv.heap c).addr, ""⟩ : Message)) ∧
    (srv.startClient conn newId).2.2.length = 2 * srv.clients.length := by
  have h : (srv.startClient conn newId).2.2 =
      List.replicate srv.clients.length (default : Message) ++
        srv.clients.map (fun c =>
          (⟨KindUser, (srv.heap c).id, (srv.heap c).name_, (srv.heap c).addr, ""⟩ : Message)) := by
    show joinLoop srv.heap srv.clients _ = _
    rw [joinLoop_eq]
  refine ⟨h, ?_⟩
  rw [h]
  simp
  omega

/-- C1 (code defect): with one client `alice` registered, the `joinMessages`
that `startClient` computes for a second connection has two entries, the
zero message and then the `user` message for `alice`, while one client is
registered. -/
theorem joinMessages_has_zero_messages :
    (srvAlice.startClient (connFrom "10.0.0.2:4000") "id-b").2.2 =
      [⟨"", "", "", "", ""⟩, ⟨KindUser, "id-a", "alice", "10.0.0.1:4000", ""⟩] ∧
    srvAlice.clients.length = 1 ∧
    (srvAlice.startClient (connFrom "10.0.0.2:4000") "id-b").2.2.length = 2 := by
  decide

/-! ## C4: the postcondition of `sendAll` -/

/-- C4: in a state that satisfies the registry invariant, `sendAll e m`
returns; the member set is unchanged; a registered client other than `e`
with fewer than 100 queued messages has `m` appended at the tail of its
queue; a registered client other than `e` with 100 or more is unchanged;
`e` and every unregistered client are unchanged; only queues change; and
what happens to a client `s` depends only on `s` itself (the same client in
any other state with the same membership gets the same result). -/
theorem sendAll_post (srv : Server) (e : Option Ptr) (m : Message) (hinv : Inv srv) :
    ∃ srv1, srv.sendAll e m = some srv1 ∧
      srv1.clients = srv.clients ∧
      (∀ s ∈ srv.clients, some s ≠ e → (srv.heap s).send.buf.length < 100 →
        (srv1.heap s).send.buf = (srv.heap s).send.buf ++ [m]) ∧
      (∀ s ∈ srv.clients, some s ≠ e → 100 ≤ (srv.heap s).send.buf.length →
        srv1.heap s = srv.heap s) ∧
      (∀ s, some s = e → srv1.heap s = srv.heap s) ∧
      (∀ s, s ∉ srv.clients → srv1.heap s = srv.heap s) ∧
      (∀ s, (srv1.heap s).closed = (srv.heap s).closed ∧
        (srv1.heap s).send.closed = (srv.heap s).send.closed ∧
        (srv1.heap s).conn = (srv.heap s).conn ∧
        (srv1.heap s).id = (srv.heap s).id ∧
        (srv1.heap s).name_ = (srv.heap s).name_) ∧
      (∀ srv2, Inv srv2 → ∀ s, (s ∈ srv2.clients ↔ s ∈ srv.clients) →
        srv2.heap s = srv.heap s →
        ∃ srv3, srv2.sendAll e m = some srv3 ∧ srv3.heap s = srv1.heap s) := by
  refine ⟨_, sendAll_spec srv hinv e m, rfl, ?_, ?_, ?_, ?_, ?_, ?_⟩
  · intro s hs hse hlen
    show (if s ∈ srv.clients ∧ some s ≠ e then deliver (srv.heap s) m
      else srv.heap s).send.buf = _
    rw [if_pos ⟨hs, hse⟩]
    exact deliver_buf_of_room m hlen
  · intro s hs hse hlen
    show (if s ∈ srv.clients ∧ some s ≠ e then deliver (srv.heap s) m else srv.heap s) = _
    rw [if_pos ⟨hs, hse⟩]
    exact deliver_of_full m hlen
  · intro s hse
    show (if s ∈ srv.clients ∧ some s ≠ e then deliver (srv.heap s) m else srv.heap s) = _
    rw [if_neg (fun h => h.2 hse)]
  · intro s hs
    show (if s ∈ srv.clients ∧ some s ≠ e then deliver (srv.heap s) m else srv.heap s) = _
    rw [if_neg (fun h => hs h.1)]
  · intro s
    show (if s ∈ srv.clients ∧ some s ≠ e then deliver (srv.heap s) m else srv.heap s).closed = _
      ∧ (if s ∈ srv.clients ∧ some s ≠ e then deliver (srv.heap s) m
        else srv.heap s).send.closed = _
      ∧ (if s ∈ srv.clients ∧ some s ≠ e then deliver (srv.heap s) m else srv.heap s).conn = _
      ∧ (if s ∈ srv.clients ∧ some s ≠ e then deliver (srv.heap s) m else srv.heap s).id = _
      ∧ (if s ∈ srv.clients ∧ some s ≠ e then deliver (srv.heap s) m else srv.heap s).name_ = _
    split <;> simp
  · intro srv2 hinv2 s hmem hheap
    refine ⟨_, sendAll_spec srv2 hinv2 e m, ?_⟩
    show (if s ∈ srv2.clients ∧ some s ≠ e then deliver (srv2.heap s) m else srv2.heap s) =
      (if s ∈ srv.clients ∧ some s ≠ e then deliver (srv.heap s) m else srv.heap s)
    rw [hheap]
    by_cases h : s ∈ srv.clients
    · simp [h, hmem.mpr h]
    · have h2 : s ∉ srv2.clients := fun h2 => h (hmem.mp h2)
      simp [h, h2]

/-- Witness of C4 on the two-client state, broadcasting to everyone. -/
theorem sendAll_post_witness :
    Inv srvTwo ∧
    ∃ srv1, srvTwo.sendAll none ⟨KindText, "id-a", "alice", "", "hi"⟩ = some srv1 ∧
      srv1.clients = srvTwo.clients ∧
      (∀ s ∈ srvTwo.clients, some s ≠ (none : Option Ptr) →
        (srvTwo.heap s).send.buf.length < 100 →
        (srv1.heap s).send.buf =
          (srvTwo.heap s).send.buf ++ [⟨KindText, "id-a", "alice", "", "hi"⟩]) ∧
      (∀ s ∈ srvTwo.clients, some s ≠ (none : Option Ptr) →
        100 ≤ (srvTwo.heap s).send.buf.length → srv1.heap s = srvTwo.heap s) ∧
      (∀ s, some s = (none : Option Ptr) → srv1.heap s = srvTwo.heap s) ∧
      (∀ s, s ∉ srvTwo.clients → srv1.heap s = srvTwo.heap s) ∧
      (∀ s, (srv1.heap s).closed = (srvTwo.heap s).closed ∧
        (srv1.heap s).send.closed = (srvTwo.heap s).send.closed ∧
        (srv1.heap s).conn = (srvTwo.heap s).conn ∧
        (srv1.heap s).id = (srvTwo.heap s).id ∧
        (srv1.heap s).name_ = (srvTwo.heap s).name_) ∧
      (∀ srv2, Inv srv2 → ∀ s, (s ∈ srv2.clients ↔ s ∈ srvTwo.clients) →
        srv2.heap s = srvTwo.heap s →
        ∃ srv3, srv2.sendAll none ⟨KindText, "id-a", "alice", "", "hi"⟩ = some srv3 ∧
          srv3.heap s = srv1.heap s) :=
  have hinv : Inv srvTwo :=
    inv_startClient (inv_setName (inv_startClient inv_new _ _) _ _) _ _
  ⟨hinv, sendAll_post srvTwo none ⟨KindText, "id-a", "alice", "", "hi"⟩ hinv⟩

/-! ## C6: `close` -/

/-- C6: in a state that satisfies the registry invariant, `close c`
returns a state in which `c` is closed and not a member, and closing again
returns that same state.  When `c` was not closed before, its queue was open
and is now closed, its transport is closed, the member set is the old one
without `c`, and everything else about `c` is kept; when `c` was closed
already, nothing changes.  No other client changes, in the heap or in the
member set. -/
theorem close_idempotent (srv : Server) (c : Ptr) (hinv : Inv srv) :
    ∃ srv1, srv.close c = some srv1 ∧
      srv1.close c = some srv1 ∧
      (srv1.heap c).closed = true ∧
      c ∉ srv1.clients ∧
      ((srv.heap c).closed = false →
        (srv.heap c).send.closed = false ∧
        (srv1.heap c).send.closed = true ∧
        (srv1.heap c).conn.closed = true ∧
        (srv1.heap c).send.buf = (srv.heap c).send.buf ∧
        (srv1.heap c).id = (srv.heap c).id ∧
        (srv1.heap c).name_ = (srv.heap c).name_ ∧
        srv1.clients = mapDelete srv.clients c) ∧
      ((srv.heap c).closed = true → srv1 = srv) ∧
      (∀ p, p ≠ c → srv1.heap p = srv.heap p ∧ (p ∈ srv1.clients ↔ p ∈ srv.clients)) ∧
      srv1.next = srv.next := by
  by_cases hc : (srv.heap c).closed = true
  · refine ⟨srv, close_of_closed srv c hc, close_of_closed srv c hc, hc, ?_, ?_, ?_, ?_, rfl⟩
    · intro hm
      have := hinv.open_ c hm
      rw [hc] at this
      cases this
    · intro h0
      rw [hc] at h0
      cases h0
    · intro _; rfl
    · intro p _; exact ⟨rfl, Iff.rfl⟩
  · have hc0 : (srv.heap c).closed = false := by simpa using hc
    refine ⟨_, close_of_open hinv c hc0, ?_, ?_, ?_, ?_, ?_, ?_, rfl⟩
    · apply close_of_closed
      show (Function.update srv.heap c _ c).closed = true
      rw [Function.update_same]
    · show (Function.update srv.heap c _ c).closed = true
      rw [Function.update_same]
    · intro hm
      exact (mem_mapDelete.mp hm).2 rfl
    · intro _
      refine ⟨hinv.chan c hc0, ?_, ?_, ?_, ?_, ?_, rfl⟩
      · show (Function.update srv.heap c _ c).send.closed = true
        rw [Function.update_same]
      · show (Function.update srv.heap c _ c).conn.closed = true
        rw [Function.update_same]
      · show (Function.update srv.heap c _ c).send.buf = _
        rw [Function.update_same]
      · show (Function.update srv.heap c _ c).id = _
        rw [Function.update_same]
      · show (Function.update srv.heap c _ c).name_ = _
        rw [Function.update_same]
    · intro h1
      exact absurd h1 hc
    · intro p hp
      refine ⟨?_, ?_⟩
      · show Function.update srv.heap c _ p = _
        rw [Function.update_noteq hp]
      · show p ∈ mapDelete srv.clients c ↔ _
        rw [mem_mapDelete]
        exact ⟨fun h => h.1, fun h => ⟨h, hp⟩⟩

/-- Witness of C6: closing the second client of the two-client state. -/
theorem close_idempotent_witness :
    Inv srvTwo ∧
    ∃ srv1, srvTwo.close 1 = some srv1 ∧
      srv1.close 1 = some srv1 ∧
      (srv1.heap 1).closed = true ∧
      1 ∉ srv1.clients ∧
      ((srvTwo.heap 1).closed = false →
        (srvTwo.heap 1).send.closed = false ∧
        (srv1.heap 1).send.closed = true ∧
        (srv1.heap 1).conn.closed = true ∧
        (srv1.heap 1).send.buf = (srvTwo.heap 1).send.buf ∧
        (srv1.heap 1).id = (srvTwo.heap 1).id ∧
        (srv1.heap 1).name_ = (srvTwo.heap 1).name_ ∧
        srv1.clients = mapDelete srvTwo.clients 1) ∧
      ((srvTwo.heap 1).closed = true → srv1 = srvTwo) ∧
      (∀ p, p ≠ 1 → srv1.heap p = srvTwo.heap p ∧ (p ∈ srv1.clients ↔ p ∈ srvTwo.clients)) ∧
      srv1.next = srvTwo.next :=
  have hinv : Inv srvTwo :=
    inv_startClient (inv_setName (inv_startClient inv_new _ _) _ _) _ _
  ⟨hinv, close_idempotent srvTwo 1 hinv⟩

/-! ## C9: the invariant on reachable states -/

/-- C9: in every state reachable from the empty registry by `startClient`,
`sendAll`, `close`, the writer's receive and `setName`, every member is not
closed and has an open queue, every closed client is absent from the member
set, `sendAll` returns (it never sends on a closed channel), and no
operation resets the `closed` flag of an existing client. -/
theorem reachable_registry_invariant (srv : Server) (hr : Reachable srv) :
    (∀ p ∈ srv.clients, (srv.heap p).closed = false ∧ (srv.heap p).send.closed = false) ∧
    (∀ p, (srv.heap p).closed = true → p ∉ srv.clients) ∧
    (∀ e m, ∃ srv1, srv.sendAll e m = some srv1) ∧
    (∀ a, ∃ srv1, srv.step a = some srv1 ∧
      ∀ p, p < srv.next → (srv.heap p).closed = true → (srv1.heap p).closed = true) := by
  have hinv := reachable_inv hr
  refine ⟨?_, ?_, ?_, ?_⟩
  · intro p hp
    exact ⟨hinv.open_ p hp, hinv.chan p (hinv.open_ p hp)⟩
  · intro p hc hm
    have := hinv.open_ p hm
    rw [hc] at this
    cases this
  · intro e m
    exact ⟨_, sendAll_spec srv hinv e m⟩
  · intro a
    cases a with
    | startClient conn newId =>
      refine ⟨_, rfl, ?_⟩
      intro p hp hc
      show (Function.update srv.heap srv.next _ p).closed = true
      rw [Function.update_noteq (Nat.ne_of_lt hp)]
      exact hc
    | sendAll client msg =>
      refine ⟨_, sendAll_spec srv hinv client msg, ?_⟩
      intro p _ hc
      show (if p ∈ srv.clients ∧ some p ≠ client then deliver (srv.heap p) msg
        else srv.heap p).closed = true
      split
      · rw [deliver_closed]; exact hc
      · exact hc
    | close c =>
      by_cases hcc : (srv.heap c).closed = true
      · exact ⟨srv, close_of_closed srv c hcc, fun p _ hc => hc⟩
      · have hc0 : (srv.heap c).closed = false := by simpa using hcc
        refine ⟨_, close_of_open hinv c hc0, ?_⟩
        intro p _ hc
        show (Function.update srv.heap c _ p).closed = true
        by_cases hpc : p = c
        · subst hpc
          rw [Function.update_same]
        · rw [Function.update_noteq hpc]
          exact hc
    | recv c =>
      refine ⟨_, rfl, ?_⟩
      intro p _ hc
      show (Function.update srv.heap c _ p).closed = true
      by_cases hpc : p = c
      · subst hpc
        rw [Function.update_same]
        exact hc
      · rw [Function.update_noteq hpc]
        exact hc
    | setName c name =>
      refine ⟨_, rfl, ?_⟩
      intro p _ hc
      show (Function.update srv.heap c _ p).closed = true
      by_cases hpc : p = c
      · subst hpc
        rw [Function.update_same]
        exact hc
      · rw [Function.update_noteq hpc]
        exact hc

/-- Witness of C9: the state after one registration is reachable. -/
theorem reachable_registry_invariant_witness :
    Reachable srvOne ∧
    ((∀ p ∈ srvOne.clients,
      (srvOne.heap p).closed = false ∧ (srvOne.heap p).send.closed = false) ∧
    (∀ p, (srvOne.heap p).closed = true → p ∉ srvOne.clients) ∧
    (∀ e m, ∃ srv1, srvOne.sendAll e m = some srv1) ∧
    (∀ a, ∃ srv1, srvOne.step a = some srv1 ∧
      ∀ p, p < srvOne.next → (srvOne.heap p).closed = true → (srv1.heap p).closed = true)) :=
  have hr : Reachable srvOne :=
    Reachable.step (Action.startClient (connFrom "10.0.0.1:4000") "id-a") Reachable.new rfl
  ⟨hr, reachable_registry_invariant srvOne hr⟩

/-! ## The reader -/

/-- The handshake of `reader` in a state that satisfies the invariant: the
name is stored and every member gets `deliver`. -/
theorem readerConnect_spec (srv : Server) (c : Ptr) (im : Message) (hinv : Inv srv) :
    readerConnect srv c im =
      some
        ({ srv with
          heap := fun p =>
            if p ∈ srv.clients ∧ some p ≠ (none : Option Ptr) then
              deliver ((srv.setName c
                (if im.Name = "" then (srv.heap c).id else im.Name)).heap p)
                ⟨KindConnect, (srv.heap c).id,
                  if im.Name = "" then (srv.heap c).id else im.Name,
                  (srv.heap c).conn.remoteAddr, ""⟩
            else (srv.setName c (if im.Name = "" then (srv.heap c).id else im.Name)).heap p },
          if im.Name = "" then (srv.heap c).id else im.Name) := by
  unfold readerConnect Server.clientSendAll
  simp only
  rw [sendAll_spec _ (inv_setName hinv c _)]
  have hid : ((srv.setName c (if im.Name = "" then (srv.heap c).id else im.Name)).heap c).id =
      (srv.heap c).id := by
    show (Function.update srv.heap c _ c).id = _
    rw [Function.update_same]
  rw [hid]
  rfl

theorem setName_buf (srv : Server) (c : Ptr) (name : String) (p : Ptr) :
    ((srv.setName c name).heap p).send = (srv.heap p).send := by
  show (Function.update srv.heap c _ p).send = _
  by_cases hp : p = c
  · subst hp
    rw [Function.update_same]
  · rw [Function.update_noteq hp]

/-- The `for` loop of `reader` in a state that satisfies the invariant: it
returns, the invariant and the member set are kept, and every queue is its
old content followed by `text` messages only. -/
theorem readerLoop_spec (c : Ptr) (name : String) (input : List Decoded) :
    ∀ srv : Server, Inv srv →
      ∃ srv1, readerLoop c name srv input = some srv1 ∧ Inv srv1 ∧
        srv1.clients = srv.clients ∧
        ∀ p, ∃ l, (srv1.heap p).send.buf = (srv.heap p).send.buf ++ l ∧
          ∀ m ∈ l, m.Kind = KindText := by
  induction input with
  | nil =>
    intro srv hinv
    exact ⟨srv, rfl, hinv, rfl, fun p => ⟨[], by simp, by simp⟩⟩
  | cons d rest ih =>
    intro srv hinv
    cases d with
    | eof => exact ⟨srv, rfl, hinv, rfl, fun p => ⟨[], by simp, by simp⟩⟩
    | err => exact ⟨srv, rfl, hinv, rfl, fun p => ⟨[], by simp, by simp⟩⟩
    | msg m =>
      by_cases hk : m.Kind = KindText
      · obtain ⟨srv1, h1, hinv1, _⟩ :=
          inv_sendAll hinv none ⟨KindText, (srv.heap c).id, name, "", m.Text⟩
        have hspec := sendAll_spec srv hinv none ⟨KindText, (srv.heap c).id, name, "", m.Text⟩
        rw [h1] at hspec
        obtain ⟨srv2, h2, hinv2, hcl2, hq2⟩ := ih srv1 hinv1
        refine ⟨srv2, ?_, hinv2, ?_, ?_⟩
        · rw [readerLoop, if_neg (not_not.mpr hk)]
          unfold Server.clientSendAll
          rw [h1]
          exact h2
        · rw [hcl2]
          cases hspec
          rfl
        · intro p
          obtain ⟨l, hl, hlk⟩ := hq2 p
          cases hspec
          by_cases hroom : p ∈ srv.clients ∧ (srv.heap p).send.buf.length < sendCapacity
          · refine ⟨⟨KindText, (srv.heap c).id, name, "", m.Text⟩ :: l, ?_, ?_⟩
            · rw [hl]
              show (if p ∈ srv.clients ∧ some p ≠ (none : Option Ptr) then
                deliver (srv.heap p) _ else srv.heap p).send.buf ++ l = _
              rw [if_pos ⟨hroom.1, by simp⟩, deliver_buf_of_room _ hroom.2]
              simp
            · intro x hx
              rcases List.mem_cons.mp hx with hx | hx
              · rw [hx]
              · exact hlk x hx
          · refine ⟨l, ?_, hlk⟩
            rw [hl]
            show (if p ∈ srv.clients ∧ some p ≠ (none : Option Ptr) then
              deliver (srv.heap p) _ else srv.heap p).send.buf ++ l = _
            by_cases hp : p ∈ srv.clients
            · have hfull : sendCapacity ≤ (srv.heap p).send.buf.length :=
                Nat.le_of_not_lt (fun h => hroom ⟨hp, h⟩)
              rw [if_pos ⟨hp, by simp⟩, deliver_of_full _ hfull]
            · rw [if_neg (fun h => hp h.1)]
      · obtain ⟨srv2, h2, hinv2, hcl2, hq2⟩ := ih srv hinv
        refine ⟨srv2, ?_, hinv2, hcl2, hq2⟩
        rw [readerLoop, if_pos hk]
        exact h2

/-- The handshake of `reader`, lines 98-108, in a state that satisfies the
invariant: it returns with the final name, the invariant and the member set
are kept, the name is stored, and the announcement is at the tail of the
queue of every member with room. -/
theorem readerConnect_post (srv : Server) (c : Ptr) (im : Message) (hinv : Inv srv) :
    ∃ srv1, readerConnect srv c im =
        some (srv1, if im.Name = "" then (srv.heap c).id else im.Name) ∧
      Inv srv1 ∧ srv1.clients = srv.clients ∧
      (srv1.heap c).name_ = (if im.Name = "" then (srv.heap c).id else im.Name) ∧
      (∀ p ∈ srv.clients, (srv.heap p).send.buf.length < 100 →
        (srv1.heap p).send.buf = (srv.heap p).send.buf ++
          [⟨KindConnect, (srv.heap c).id,
            if im.Name = "" then (srv.heap c).id else im.Name,
            (srv.heap c).conn.remoteAddr, ""⟩]) ∧
      (∀ p, p ∉ srv.clients ∨ 100 ≤ (srv.heap p).send.buf.length →
        (srv1.heap p).send.buf = (srv.heap p).send.buf) := by
  have hinv0 := inv_setName hinv c (if im.Name = "" then (srv.heap c).id else im.Name)
  obtain ⟨srv1, h1, hinv1, _⟩ := inv_sendAll hinv0 none
    ⟨KindConnect, (srv.heap c).id, if im.Name = "" then (srv.heap c).id else im.Name,
      (srv.heap c).conn.remoteAddr, ""⟩
  have hspec := sendAll_spec _ hinv0 none
    ⟨KindConnect, (srv.heap c).id, if im.Name = "" then (srv.heap c).id else im.Name,
      (srv.heap c).conn.remoteAddr, ""⟩
  rw [h1] at hspec
  have hrc : readerConnect srv c im =
      some (srv1, if im.Name = "" then (srv.heap c).id else im.Name) := by
    rw [readerConnect_spec srv c im hinv]
    cases hspec
    rfl
  cases hspec
  refine ⟨_, hrc, hinv1, rfl, ?_, ?_, ?_⟩
  · show (if c ∈ srv.clients ∧ some c ≠ (none : Option Ptr) then deliver _ _ else _).name_ = _
    have hn : ((srv.setName c (if im.Name = "" then (srv.heap c).id else im.Name)).heap c).name_ =
        (if im.Name = "" then (srv.heap c).id else im.Name) := by
      show (Function.update srv.heap c _ c).name_ = _
      rw [Function.update_same]
    split
    · rw [deliver_name, hn]
    · rw [hn]
  · intro p hp hroom
    show (if p ∈ srv.clients ∧ some p ≠ (none : Option Ptr) then deliver _ _ else _).send.buf = _
    rw [if_pos ⟨hp, by simp⟩, deliver_buf_of_room, setName_buf]
    rw [setName_buf]
    exact hroom
  · intro p hp
    show (if p ∈ srv.clients ∧ some p ≠ (none : Option Ptr) then deliver _ _ else _).send.buf = _
    by_cases hm : p ∈ srv.clients
    · have hfull : sendCapacity ≤ (srv.heap p).send.buf.length := by
        rcases hp with hp | hp
        · exact absurd hm hp
        · exact hp
      rw [if_pos ⟨hm, by simp⟩, deliver_of_full, setName_buf]
      rw [setName_buf]
      exact hfull
    · rw [if_neg (fun h => hm h.1), setName_buf]

/-! ## C2: the connect announcement -/

/-- C2 (as stated, refuted): with a single registered client, pointer 0,
whose queue is empty, reading its `connect` message puts the `connect`
announcement into that client's own queue. -/
theorem connect_echoed_to_sender :
    (readerBody srvOne 0 [Decoded.msg ⟨KindConnect, "", "alice", "", ""⟩]).map
        (fun s => (s.heap 0).send.buf) =
      some [⟨KindConnect, "id-a", "alice", "10.0.0.1:4000", ""⟩] ∧
    (srvOne.heap 0).send.buf = [] ∧ 0 ∈ srvOne.clients := by
  decide

/-- C2 (amended): in a state that satisfies the registry invariant, when
the first decoded message of `c` has kind `connect`, the reader stores the
final name (the peer's name, or `c.id` when that is empty) and enqueues
`{Kind: connect, Id: c.id, Name: final name, Addr: c.conn.RemoteAddr()}` to
every registered client with queue room, `c` itself included; a full queue
and the queue of an unregistered client are unchanged, and so is the member
set. -/
theorem readerBody_connect (srv : Server) (c : Ptr) (im : Message) (hinv : Inv srv)
    (hk : im.Kind = KindConnect) :
    ∃ srv1, readerBody srv c [Decoded.msg im] = some srv1 ∧
      srv1.clients = srv.clients ∧
      (srv1.heap c).name_ = (if im.Name = "" then (srv.heap c).id else im.Name) ∧
      (∀ p ∈ srv.clients, (srv.heap p).send.buf.length < 100 →
        (srv1.heap p).send.buf = (srv.heap p).send.buf ++
          [⟨KindConnect, (srv.heap c).id,
            if im.Name = "" then (srv.heap c).id else im.Name,
            (srv.heap c).conn.remoteAddr, ""⟩]) ∧
      (c ∈ srv.clients → (srv.heap c).send.buf.length < 100 →
        (srv1.heap c).send.buf = (srv.heap c).send.buf ++
          [⟨KindConnect, (srv.heap c).id,
            if im.Name = "" then (srv.heap c).id else im.Name,
            (srv.heap c).conn.remoteAddr, ""⟩]) ∧
      (∀ p, p ∉ srv.clients ∨ 100 ≤ (srv.heap p).send.buf.length →
        (srv1.heap p).send.buf = (srv.heap p).send.buf) := by
  obtain ⟨srv1, h1, _, hcl, hname, hroom, hfull⟩ := readerConnect_post srv c im hinv
  refine ⟨srv1, ?_, hcl, hname, hroom, hroom c, hfull⟩
  rw [readerBody, if_neg (not_not.mpr hk), h1]
  simp only [readerLoop]

/-- Witness of C2 (amended): the second client of the two-client state
announces itself as `bob`. -/
theorem readerBody_connect_witness :
    Inv srvTwo ∧ (⟨KindConnect, "", "bob", "", ""⟩ : Message).Kind = KindConnect ∧
    ∃ srv1, readerBody srvTwo 1 [Decoded.msg ⟨KindConnect, "", "bob", "", ""⟩] = some srv1 ∧
      srv1.clients = srvTwo.clients ∧
      (srv1.heap 1).name_ = (if (⟨KindConnect, "", "bob", "", ""⟩ : Message).Name = "" then
        (srvTwo.heap 1).id else (⟨KindConnect, "", "bob", "", ""⟩ : Message).Name) ∧
      (∀ p ∈ srvTwo.clients, (srvTwo.heap p).send.buf.length < 100 →
        (srv1.heap p).send.buf = (srvTwo.heap p).send.buf ++
          [⟨KindConnect, (srvTwo.heap 1).id,
            if (⟨KindConnect, "", "bob", "", ""⟩ : Message).Name = "" then (srvTwo.heap 1).id
            else (⟨KindConnect, "", "bob", "", ""⟩ : Message).Name,
            (srvTwo.heap 1).conn.remoteAddr, ""⟩]) ∧
      (1 ∈ srvTwo.clients → (srvTwo.heap 1).send.buf.length < 100 →
        (srv1.heap 1).send.buf = (srvTwo.heap 1).send.buf ++
          [⟨KindConnect, (srvTwo.heap 1).id,
            if (⟨KindConnect, "", "bob", "", ""⟩ : Message).Name = "" then (srvTwo.heap 1).id
            else (⟨KindConnect, "", "bob", "", ""⟩ : Message).Name,
            (srvTwo.heap 1).conn.remoteAddr, ""⟩]) ∧
      (∀ p, p ∉ srvTwo.clients ∨ 100 ≤ (srvTwo.heap p).send.buf.length →
        (srv1.heap p).send.buf = (srvTwo.heap p).send.buf) :=
  have hinv : Inv srvTwo :=
    inv_startClient (inv_setName (inv_startClient inv_new _ _) _ _) _ _
  ⟨hinv, rfl, readerBody_connect srvTwo 1 ⟨KindConnect, "", "bob", "", ""⟩ hinv rfl⟩

/-! ## C3: no disconnect on teardown -/

/-- C3 (code defect): in the two-client state the second client sends
`connect` as `bob` and then its stream ends.  When its reader has returned,
the client is closed and removed, and the queue of the other client,
`alice`, which was empty and has room, holds the `connect` announcement and
nothing else: no `disconnect` message was enqueued. -/
theorem reader_no_disconnect :
    (srvTwo.reader 1 [Decoded.msg ⟨KindConnect, "", "bob", "", ""⟩, Decoded.eof]).map
        (fun s => (s.clients, (s.heap 0).send.buf, (s.heap 1).closed)) =
      some ([0], [⟨KindConnect, "id-b", "bob", "10.0.0.2:4000", ""⟩], true) ∧
    (srvTwo.heap 0).send.buf = [] ∧ 0 ∈ srvTwo.clients := by
  decide

/-- The reader never enqueues a `disconnect`: in a state that satisfies the
invariant it returns, and every queue is its old content followed by
messages of kind `connect` or `text`. -/
theorem reader_enqueues_connect_text_only (srv : Server) (c : Ptr) (input : List Decoded)
    (hinv : Inv srv) :
    ∃ srv1, srv.reader c input = some srv1 ∧
      ∀ p, ∃ l, (srv1.heap p).send.buf = (srv.heap p).send.buf ++ l ∧
        ∀ m ∈ l, m.Kind = KindConnect ∨ m.Kind = KindText := by
  have hclose : ∀ s0 : Server, Inv s0 →
      (∀ p, ∃ l, (s0.heap p).send.buf = (srv.heap p).send.buf ++ l ∧
        ∀ m ∈ l, m.Kind = KindConnect ∨ m.Kind = KindText) →
      ∃ srv1, s0.close c = some srv1 ∧
        ∀ p, ∃ l, (srv1.heap p).send.buf = (srv.heap p).send.buf ++ l ∧
          ∀ m ∈ l, m.Kind = KindConnect ∨ m.Kind = KindText := by
    intro s0 h0 hq
    by_cases hc : (s0.heap c).closed = true
    · exact ⟨s0, close_of_closed s0 c hc, hq⟩
    · have hc0 : (s0.heap c).closed = false := by simpa using hc
      refine ⟨_, close_of_open h0 c hc0, ?_⟩
      intro p
      obtain ⟨l, hl, hlk⟩ := hq p
      refine ⟨l, ?_, hlk⟩
      show (Function.update s0.heap c _ p).send.buf = _
      by_cases hp : p = c
      · subst hp
        rw [Function.update_same]
        exact hl
      · rw [Function.update_noteq hp]
        exact hl
  have hsame : ∀ p, ∃ l, (srv.heap p).send.buf = (srv.heap p).send.buf ++ l ∧
      ∀ m ∈ l, m.Kind = KindConnect ∨ m.Kind = KindText :=
    fun p => ⟨[], by simp, by simp⟩
  unfold Server.reader
  match input with
  | [] => exact hclose srv hinv hsame
  | Decoded.eof :: _ => exact hclose srv hinv hsame
  | Decoded.err :: _ => exact hclose srv hinv hsame
  | Decoded.msg im :: rest =>
    by_cases hk : im.Kind = KindConnect
    · obtain ⟨s1, h1, hinv1, _, _, hroom, hfull⟩ := readerConnect_post srv c im hinv
      obtain ⟨s2, h2, hinv2, _, hq2⟩ := readerLoop_spec c
        (if im.Name = "" then (srv.heap c).id else im.Name) rest s1 hinv1
      have hq1 : ∀ p, ∃ l, (s1.heap p).send.buf = (srv.heap p).send.buf ++ l ∧
          ∀ m ∈ l, m.Kind = KindConnect := by
        intro p
        by_cases hp : p ∈ srv.clients ∧ (srv.heap p).send.buf.length < 100
        · exact ⟨_, hroom p hp.1 hp.2, by simp⟩
        · refine ⟨[], ?_, by simp⟩
          rw [List.append_nil]
          apply hfull
          by_cases hm : p ∈ srv.clients
          · exact Or.inr (Nat.le_of_not_lt (fun h => hp ⟨hm, h⟩))
          · exact Or.inl hm
      have hbody : readerBody srv c (Decoded.msg im :: rest) = some s2 := by
        rw [readerBody, if_neg (not_not.mpr hk), h1]
        exact h2
      rw [hbody]
      apply hclose s2 hinv2
      intro p
      obtain ⟨l1, hl1, hk1⟩ := hq1 p
      obtain ⟨l2, hl2, hk2⟩ := hq2 p
      refine ⟨l1 ++ l2, ?_, ?_⟩
      · rw [hl2, hl1, List.append_assoc]
      · intro m hm
        rcases List.mem_append.mp hm with hm | hm
        · exact Or.inl (hk1 m hm)
        · exact Or.inr (hk2 m hm)
    · have hbody : readerBody srv c (Decoded.msg im :: rest) = some srv := by
        rw [readerBody, if_pos hk]
      rw [hbody]
      exact hclose srv hinv hsame

/-! ## C7: a protocol violation on the first message -/

/-- C7: in a state that satisfies the registry invariant, when the first
decoded result is not a message of kind `connect` (the stream ends, decoding
fails, or the message has another kind), the reader returns, no queue has
changed, the name of `c` has not changed, and `c` is closed and not a
member. -/
theorem reader_protocol_violation (srv : Server) (c : Ptr) (input : List Decoded)
    (hinv : Inv srv)
    (hbad : ∀ im rest, input = Decoded.msg im :: rest → im.Kind ≠ KindConnect) :
    ∃ srv1, srv.reader c input = some srv1 ∧
      (∀ p, (srv1.heap p).send.buf = (srv.heap p).send.buf) ∧
      (srv1.heap c).name_ = (srv.heap c).name_ ∧
      (srv1.heap c).closed = true ∧
      c ∉ srv1.clients := by
  have hbody : readerBody srv c input = some srv := by
    match input, hbad with
    | [], _ => rfl
    | Decoded.eof :: _, _ => rfl
    | Decoded.err :: _, _ => rfl
    | Decoded.msg im :: rest, hbad =>
      rw [readerBody, if_pos (hbad im rest rfl)]
  unfold Server.reader
  rw [hbody]
  by_cases hc : (srv.heap c).closed = true
  · refine ⟨srv, close_of_closed srv c hc, fun _ => rfl, rfl, hc, ?_⟩
    intro hm
    have := hinv.open_ c hm
    rw [hc] at this
    cases this
  · have hc0 : (srv.heap c).closed = false := by simpa using hc
    refine ⟨_, close_of_open hinv c hc0, ?_, ?_, ?_, ?_⟩
    · intro p
      show (Function.update srv.heap c _ p).send.buf = _
      by_cases hp : p = c
      · subst hp
        rw [Function.update_same]
      · rw [Function.update_noteq hp]
    · show (Function.update srv.heap c _ c).name_ = _
      rw [Function.update_same]
    · show (Function.update srv.heap c _ c).closed = true
      rw [Function.update_same]
    · intro hm
      exact (mem_mapDelete.mp hm).2 rfl

/-- Witness of C7: the second client of the two-client state sends a `text`
message first. -/
theorem reader_protocol_violation_witness :
    Inv srvTwo ∧
    (∀ im rest, [Decoded.msg ⟨KindText, "", "", "", "hi"⟩] = Decoded.msg im :: rest →
      im.Kind ≠ KindConnect) ∧
    ∃ srv1, srvTwo.reader 1 [Decoded.msg ⟨KindText, "", "", "", "hi"⟩] = some srv1 ∧
      (∀ p, (srv1.heap p).send.buf = (srvTwo.heap p).send.buf) ∧
      (srv1.heap 1).name_ = (srvTwo.heap 1).name_ ∧
      (srv1.heap 1).closed = true ∧
      1 ∉ srv1.clients :=
  have hinv : Inv srvTwo :=
    inv_startClient (inv_setName (inv_startClient inv_new _ _) _ _) _ _
  have hbad : ∀ im rest, [Decoded.msg ⟨KindText, "", "", "", "hi"⟩] = Decoded.msg im :: rest →
      im.Kind ≠ KindConnect := by
    intro im rest h
    cases h
    decide
  ⟨hinv, hbad, reader_protocol_violation srvTwo 1 _ hinv hbad⟩

/-! ## C8: attribution of text -/

/-- C8: in a state that satisfies the registry invariant, when the loop of
`reader` (running for client `c` with final name `name`) decodes a message
`m` of kind `text`, it runs `sendAll(nil, {Kind: text, Id: c.id, Name: name,
Addr: "", Text: m.Text})`, which puts exactly that message at the tail of
the queue of every member with room, and goes on with the rest of the input.
Any other `text` message with the same `Text` has the same effect whatever
its `Id`, `Name` and `Addr`.  A message of another kind is skipped: the loop
goes on from the same state, and on its own it leaves the state as it is. -/
theorem readerLoop_text_attribution (srv : Server) (c : Ptr) (name : String) (m : Message)
    (rest : List Decoded) (hinv : Inv srv) (hk : m.Kind = KindText) :
    (∃ srv1,
      srv.sendAll none ⟨KindText, (srv.heap c).id, name, "", m.Text⟩ = some srv1 ∧
      readerLoop c name srv (Decoded.msg m :: rest) = readerLoop c name srv1 rest ∧
      readerLoop c name srv [Decoded.msg m] = some srv1 ∧
      srv1.clients = srv.clients ∧
      (∀ p ∈ srv.clients, (srv.heap p).send.buf.length < 100 →
        (srv1.heap p).send.buf =
          (srv.heap p).send.buf ++ [⟨KindText, (srv.heap c).id, name, "", m.Text⟩])) ∧
    (∀ m2 : Message, m2.Kind = KindText → m2.Text = m.Text →
      readerLoop c name srv (Decoded.msg m2 :: rest) =
        readerLoop c name srv (Decoded.msg m :: rest)) ∧
    (∀ m3 : Message, m3.Kind ≠ KindText →
      readerLoop c name srv (Decoded.msg m3 :: rest) = readerLoop c name srv rest ∧
      readerLoop c name srv [Decoded.msg m3] = some srv) := by
  refine ⟨?_, ?_, ?_⟩
  · have hspec := sendAll_spec srv hinv none ⟨KindText, (srv.heap c).id, name, "", m.Text⟩
    refine ⟨_, hspec, ?_, ?_, rfl, ?_⟩
    · rw [readerLoop, if_neg (not_not.mpr hk)]
      unfold Server.clientSendAll
      rw [hspec]
    · rw [readerLoop, if_neg (not_not.mpr hk)]
      unfold Server.clientSendAll
      rw [hspec]
      simp only [readerLoop]
    · intro p hp hroom
      show (if p ∈ srv.clients ∧ some p ≠ (none : Option Ptr) then
        deliver (srv.heap p) _ else srv.heap p).send.buf = _
      rw [if_pos ⟨hp, by simp⟩, deliver_buf_of_room _ hroom]
  · intro m2 hk2 ht
    rw [readerLoop, readerLoop, if_neg (not_not.mpr hk2), if_neg (not_not.mpr hk), ht]
  · intro m3 hk3
    refine ⟨?_, ?_⟩
    · rw [readerLoop, if_pos hk3]
    · rw [readerLoop, if_pos hk3]
      simp only [readerLoop]

/-- Witness of C8: `alice` sends the text `hi` in the two-client state. -/
theorem readerLoop_text_attribution_witness :
    Inv srvTwo ∧ (⟨KindText, "x", "mallory", "y", "hi"⟩ : Message).Kind = KindText ∧
    ((∃ srv1,
      srvTwo.sendAll none ⟨KindText, (srvTwo.heap 0).id, "alice", "",
        (⟨KindText, "x", "mallory", "y", "hi"⟩ : Message).Text⟩ = some srv1 ∧
      readerLoop 0 "alice" srvTwo [Decoded.msg ⟨KindText, "x", "mallory", "y", "hi"⟩] =
        readerLoop 0 "alice" srv1 [] ∧
      readerLoop 0 "alice" srvTwo [Decoded.msg ⟨KindText, "x", "mallory", "y", "hi"⟩] =
        some srv1 ∧
      srv1.clients = srvTwo.clients ∧
      (∀ p ∈ srvTwo.clients, (srvTwo.heap p).send.buf.length < 100 →
        (srv1.heap p).send.buf =
          (srvTwo.heap p).send.buf ++ [⟨KindText, (srvTwo.heap 0).id, "alice", "",
            (⟨KindText, "x", "mallory", "y", "hi"⟩ : Message).Text⟩])) ∧
    (∀ m2 : Message, m2.Kind = KindText →
      m2.Text = (⟨KindText, "x", "mallory", "y", "hi"⟩ : Message).Text →
      readerLoop 0 "alice" srvTwo [Decoded.msg m2] =
        readerLoop 0 "alice" srvTwo [Decoded.msg ⟨KindText, "x", "mallory", "y", "hi"⟩]) ∧
    (∀ m3 : Message, m3.Kind ≠ KindText →
      readerLoop 0 "alice" srvTwo [Decoded.msg m3] = readerLoop 0 "alice" srvTwo [] ∧
      readerLoop 0 "alice" srvTwo [Decoded.msg m3] = some srvTwo)) :=
  have hinv : Inv srvTwo :=
    inv_startClient (inv_setName (inv_startClient inv_new _ _) _ _) _ _
  ⟨hinv, rfl, readerLoop_text_attribution srvTwo 0 "alice" ⟨KindText, "x", "mallory", "y", "hi"⟩
    [] hinv rfl⟩

/-! ## C10: the writer -/

theorem writerLoop_encoded (queue : List Message) (m : Option Message) (ready : List Bool)
    (buf : List Message) (flushed : List (List Message)) :
    (writerLoop queue m ready buf flushed).encoded =
      flushed.flatten ++ buf ++ (m.toList ++ queue).filter (fun x => decide (x.Kind ≠ "")) := by
  induction queue, m, ready, buf, flushed using writerLoop.induct with
  | case1 ready buf flushed => simp [writerLoop, Written.encoded]
  | case2 x queue ready buf flushed ih =>
    rw [writerLoop, ih]
    simp
  | case3 queue m ready buf flushed hk ih =>
    rw [writerLoop.eq_def]
    simp only [hk, if_true]
    rw [ih]
    simp [hk]
  | case4 m buf flushed hk tail =>
    simp [writerLoop, Written.encoded, hk]
  | case5 m buf flushed hk ready1 x queue1 ih =>
    rw [writerLoop, if_neg hk, ih]
    simp [hk]
  | case6 queue m buf flushed hk ready1 ih =>
    rw [writerLoop, if_neg hk, ih]
    simp [hk]
  | case7 queue m buf flushed hk ih =>
    rw [writerLoop, if_neg hk, ih]
    simp [hk]

/-- What the writer hands to `enc.Encode`, flushed or not, is the queue
without its messages of empty `Kind`, whatever the schedule. -/
theorem writer_encoded (queue : List Message) (ready : List Bool) :
    (writer queue ready).flushed.flatten ++ (writer queue ready).pending =
      queue.filter (fun x => decide (x.Kind ≠ "")) := by
  have h := writerLoop_encoded queue none ready [] []
  unfold Written.encoded at h
  unfold writer
  rw [h]
  simp

theorem writerLoop_idle_pending (queue : List Message) (m : Option Message) (ready : List Bool)
    (buf : List Message) (flushed : List (List Message)) :
    ready = [] →
      (writerLoop queue m ready buf flushed).pending =
        (if m = none ∧ queue = [] then buf else []) := by
  induction queue, m, ready, buf, flushed using writerLoop.induct with
  | case1 ready buf flushed => intro _; simp [writerLoop]
  | case2 x queue ready buf flushed ih =>
    intro hr
    rw [writerLoop, ih hr]
    simp
  | case3 queue m ready buf flushed hk ih =>
    intro hr
    rw [writerLoop.eq_def]
    simp only [hk, if_true]
    rw [ih hr]
    simp
  | case4 m buf flushed hk tail => intro hr; cases hr
  | case5 m buf flushed hk ready1 x queue1 ih => intro hr; cases hr
  | case6 queue m buf flushed hk ready1 ih => intro hr; cases hr
  | case7 queue m buf flushed hk ih =>
    intro _
    rw [writerLoop, if_neg hk, ih rfl]
    simp

/-- When every `select` of the writer finds the channel empty (each message
arrives after the previous one was encoded and the close is seen by the
blocking receive), everything encoded is flushed: the flushes write the
queue without its messages of empty `Kind`, and nothing stays in the
buffer. -/
theorem writer_idle (queue : List Message) :
    (writer queue []).flushed.flatten = queue.filter (fun x => decide (x.Kind ≠ "")) ∧
    (writer queue []).pending = [] := by
  have hp : (writer queue []).pending = [] := by
    unfold writer
    rw [writerLoop_idle_pending queue none [] [] [] rfl]
    simp
  refine ⟨?_, hp⟩
  have h := writer_encoded queue []
  rw [hp, List.append_nil] at h
  exact h

/-- When a `select` of the writer finds the channel closed, the writer
returns before `w.Flush()`: the message encoded last stays in the buffer. -/
theorem writer_returns_before_flush :
    writer [⟨KindUser, "id-a", "alice", "10.0.0.1:4000", ""⟩] [true] =
      ⟨[], [⟨KindUser, "id-a", "alice", "10.0.0.1:4000", ""⟩]⟩ := by
  simp [writer, writerLoop, KindUser]

/-- C10 (code defect): in the two-client state, `SendAll` of a message with
text `notice` and no `Kind` puts the message into the queue of both clients;
a writer whose queue holds that message, under any schedule, encodes nothing
and flushes an empty buffer, so the message is written to no connection. -/
theorem writer_drops_empty_kind :
    (srvTwo.SendAll ⟨"", "", "", "", "notice"⟩).map
        (fun s => ((s.heap 0).send.buf, (s.heap 1).send.buf)) =
      some ([⟨"", "", "", "", "notice"⟩], [⟨"", "", "", "", "notice"⟩]) ∧
    (∀ ready : List Bool,
      writer [⟨"", "", "", "", "notice"⟩] ready = ⟨[[]], []⟩ ∧
      (writer [⟨"", "", "", "", "notice"⟩] ready).encoded = []) := by
  refine ⟨by decide, ?_⟩
  intro ready
  have h : writer [⟨"", "", "", "", "notice"⟩] ready = ⟨[[]], []⟩ := by
    unfold writer
    rw [writerLoop, writerLoop.eq_def]
    simp [writerLoop]
  rw [h]
  exact ⟨rfl, rfl⟩

/-! ## C5: the order of broadcasts in a queue -/

theorem joinSend_queue {srv srv1 : Server} (hinv : Inv srv) (c : Ptr) (m : Message)
    (hs : srv.joinSend c m = some srv1) (p : Ptr) :
    Inv srv1 ∧ srv1.next = srv.next ∧
      ∃ la : List (Origin × Message), la.Sublist (srv.offer p (Op.joinSend c m)) ∧
        (srv1.heap p).send.buf = (srv.heap p).send.buf ++ la.map Prod.snd := by
  unfold Server.joinSend at hs
  by_cases hcl : (srv.heap c).send.closed = true
  · rw [if_pos hcl] at hs
    cases hs
  · rw [if_neg hcl] at hs
    by_cases hroom : (srv.heap c).send.buf.length < sendCapacity
    · rw [if_pos hroom] at hs
      cases hs
      refine ⟨⟨hinv.nodup, hinv.alloc, ?_, ?_⟩, rfl, ?_⟩
      · intro q hq
        show (Function.update srv.heap c _ q).closed = false
        by_cases hqc : q = c
        · subst hqc
          rw [Function.update_same]
          exact hinv.open_ q hq
        · rw [Function.update_noteq hqc]
          exact hinv.open_ q hq
      · intro q
        show (Function.update srv.heap c _ q).closed = false →
          (Function.update srv.heap c _ q).send.closed = false
        by_cases hqc : q = c
        · subst hqc
          rw [Function.update_same]
          exact hinv.chan q
        · rw [Function.update_noteq hqc]
          exact hinv.chan q
      · show ∃ la : List (Origin × Message), la.Sublist (if c = p then [(Origin.presence, m)] else []) ∧
          (Function.update srv.heap c _ p).send.buf = _
        by_cases hpc : c = p
        · subst hpc
          refine ⟨[(Origin.presence, m)], ?_, ?_⟩
          · rw [if_pos rfl]
          · rw [Function.update_same]
            rfl
        · refine ⟨[], List.nil_sublist _, ?_⟩
          rw [Function.update_noteq (fun h => hpc h.symm)]
          simp
    · rw [if_neg hroom] at hs
      cases hs
      exact ⟨hinv, rfl, [], List.nil_sublist _, by simp⟩

/-- One operation under `srv.mu`, or a receive, seen from the queue of an
existing client `p`: what the writer of `p` takes, followed by the new
queue, is the old queue followed by what was enqueued, and that is nothing
or the message offered to `p`. -/
theorem step_queue {srv : Server} (hinv : Inv srv) (p : Ptr) (hp : p < srv.next) (a : Action) :
    ∃ (srv1 : Server) (la : List (Origin × Message)), srv.step a = some srv1 ∧ Inv srv1 ∧ p < srv1.next ∧
      la.Sublist (srv.offer p (Op.act a)) ∧
      srv.taken p (Op.act a) ++ (srv1.heap p).send.buf =
        (srv.heap p).send.buf ++ la.map Prod.snd := by
  cases a with
  | startClient conn newId =>
    refine ⟨_, [], rfl, inv_startClient hinv conn newId, Nat.lt_succ_of_lt hp,
      List.nil_sublist _, ?_⟩
    show [] ++ (Function.update srv.heap srv.next _ p).send.buf = _
    rw [Function.update_noteq (Nat.ne_of_lt hp)]
    simp
  | sendAll client msg =>
    obtain ⟨srv1, h1, hinv1, hnext⟩ := inv_sendAll hinv client msg
    have hspec := sendAll_spec srv hinv client msg
    rw [h1] at hspec
    cases hspec
    by_cases hoff : p ∈ srv.clients ∧ some p ≠ client
    · by_cases hroom : (srv.heap p).send.buf.length < sendCapacity
      · refine ⟨_, [(Origin.broadcast, msg)], h1, hinv1, hp, ?_, ?_⟩
        · show List.Sublist [(Origin.broadcast, msg)]
            (if p ∈ srv.clients ∧ some p ≠ client then [(Origin.broadcast, msg)] else [])
          rw [if_pos hoff]
        · show [] ++ (if p ∈ srv.clients ∧ some p ≠ client then deliver (srv.heap p) msg
            else srv.heap p).send.buf = _
          rw [if_pos hoff, deliver_buf_of_room _ hroom]
          simp
      · refine ⟨_, [], h1, hinv1, hp, List.nil_sublist _, ?_⟩
        show [] ++ (if p ∈ srv.clients ∧ some p ≠ client then deliver (srv.heap p) msg
          else srv.heap p).send.buf = _
        rw [if_pos hoff, deliver_of_full _ (Nat.le_of_not_lt hroom)]
        simp
    · refine ⟨_, [], h1, hinv1, hp, List.nil_sublist _, ?_⟩
      show [] ++ (if p ∈ srv.clients ∧ some p ≠ client then deliver (srv.heap p) msg
        else srv.heap p).send.buf = _
      rw [if_neg hoff]
      simp
  | close c =>
    by_cases hc : (srv.heap c).closed = true
    · refine ⟨srv, [], close_of_closed srv c hc, hinv, hp, List.nil_sublist _, ?_⟩
      show [] ++ _ = _
      simp
    · have hc0 : (srv.heap c).closed = false := by simpa using hc
      obtain ⟨srv1, h1, hinv1, hnext⟩ := inv_close hinv c
      have hspec := close_of_open hinv c hc0
      show ∃ (srv1 : Server) (la : List (Origin × Message)), srv.close c = some srv1 ∧ _
      rw [h1] at hspec
      cases hspec
      refine ⟨_, [], h1, hinv1, hp, List.nil_sublist _, ?_⟩
      show [] ++ (Function.update srv.heap c _ p).send.buf = _
      by_cases hpc : p = c
      · subst hpc
        rw [Function.update_same]
        simp
      · rw [Function.update_noteq hpc]
        simp
  | recv c =>
    refine ⟨_, [], rfl, inv_recv hinv c, hp, List.nil_sublist _, ?_⟩
    show (if c = p then (srv.heap p).send.buf.head?.toList else []) ++
      (Function.update srv.heap c _ p).send.buf = _
    by_cases hpc : c = p
    · subst hpc
      rw [Function.update_same, if_pos rfl]
      cases (srv.heap c).send.buf <;> simp
    · rw [Function.update_noteq (fun h => hpc h.symm), if_neg hpc]
      simp
  | setName c name =>
    refine ⟨_, [], rfl, inv_setName hinv c name, hp, List.nil_sublist _, ?_⟩
    show [] ++ ((srv.setName c name).heap p).send.buf = _
    rw [setName_buf]
    simp

/-- Any operation seen from the queue of an existing client `p`: it panics
(only a send of `joinMessages` can, and then the writer takes nothing), or
it changes the queue as in `step_queue`. -/
theorem stepOp_queue {srv : Server} (hinv : Inv srv) (p : Ptr) (hp : p < srv.next) (o : Op) :
    (srv.stepOp o = none ∧ srv.taken p o = [] ∧ ∃ c m, o = Op.joinSend c m) ∨
    ∃ (srv1 : Server) (la : List (Origin × Message)), srv.stepOp o = some srv1 ∧ Inv srv1 ∧ p < srv1.next ∧
      la.Sublist (srv.offer p o) ∧
      srv.taken p o ++ (srv1.heap p).send.buf = (srv.heap p).send.buf ++ la.map Prod.snd := by
  cases o with
  | act a => exact Or.inr (step_queue hinv p hp a)
  | joinSend c m =>
    cases hs : srv.joinSend c m with
    | none => exact Or.inl ⟨hs, rfl, c, m, rfl⟩
    | some srv1 =>
      obtain ⟨hinv1, hnext, la, hla, hbuf⟩ := joinSend_queue hinv c m hs p
      refine Or.inr ⟨srv1, la, hs, hinv1, hnext ▸ hp, hla, ?_⟩
      show [] ++ _ = _
      rw [List.nil_append, hbuf]

/-- A run seen from the queue of an existing client `p`. -/
theorem runOps_queue (p : Ptr) (ops : List Op) :
    ∀ srv : Server, Inv srv → p < srv.next →
      ∃ lt : List (Origin × Message), lt.Sublist (Server.offered p srv ops) ∧
        Server.received p srv ops ++ ((srv.runOps ops).1.heap p).send.buf =
          (srv.heap p).send.buf ++ lt.map Prod.snd ∧
        ((∀ o ∈ ops, ∃ a, o = Op.act a) → (srv.runOps ops).2 = false) := by
  induction ops with
  | nil =>
    intro srv _ _
    exact ⟨[], List.nil_sublist _, by simp [Server.received, Server.runOps], fun _ => rfl⟩
  | cons o ops ih =>
    intro srv hinv hp
    rcases stepOp_queue hinv p hp o with ⟨hnone, htaken, c, m, ho⟩ | ⟨srv1, la, h1, hinv1, hp1, hla, hq⟩
    · refine ⟨[], List.nil_sublist _, ?_, ?_⟩
      · rw [Server.received, Server.runOps, hnone, htaken]
        simp
      · intro hall
        obtain ⟨a, ha⟩ := hall o (List.mem_cons_self _ _)
        rw [ho] at ha
        cases ha
    · obtain ⟨lt, hl, hq2, hpanic⟩ := ih srv1 hinv1 hp1
      refine ⟨la ++ lt, ?_, ?_, ?_⟩
      · rw [Server.offered, h1]
        exact List.Sublist.append hla hl
      · rw [Server.received, Server.runOps, h1]
        show (srv.taken p o ++ Server.received p srv1 ops) ++ _ = _
        rw [List.append_assoc, hq2, ← List.append_assoc, hq, List.map_append,
          List.append_assoc]
      · intro hall
        rw [Server.runOps, h1]
        exact hpanic (fun o1 ho1 => hall o1 (List.mem_cons_of_mem _ ho1))

theorem broadcastsOf_append (xs ys : List (Origin × Message)) :
    broadcastsOf (xs ++ ys) = broadcastsOf xs ++ broadcastsOf ys := by
  simp [broadcastsOf]

theorem broadcastsOf_sublist {xs ys : List (Origin × Message)} (h : xs.Sublist ys) :
    (broadcastsOf xs).Sublist (broadcastsOf ys) :=
  (h.filter _).map _

theorem broadcastsOf_eq_map {xs : List (Origin × Message)}
    (h : ∀ x ∈ xs, x.1 = Origin.broadcast) : broadcastsOf xs = xs.map Prod.snd := by
  unfold broadcastsOf
  rw [List.filter_eq_self.mpr]
  intro x hx
  simp [h x hx]

theorem issued_cons (o : Op) (ops : List Op) : issued (o :: ops) = issued [o] ++ issued ops := by
  cases o with
  | act a => cases a <;> simp [issued]
  | joinSend c m => simp [issued]

theorem issued_append (xs ys : List Op) : issued (xs ++ ys) = issued xs ++ issued ys := by
  induction xs with
  | nil => simp [issued]
  | cons o xs ih =>
    rw [List.cons_append, issued_cons, ih, issued_cons o xs, List.append_assoc]

theorem issued_map_recv (mid : List Ptr) :
    issued (mid.map (fun c => Op.act (Action.recv c))) = [] := by
  induction mid with
  | nil => rfl
  | cons c mid ih => simpa [issued] using ih

theorem offer_broadcasts (srv : Server) (p : Ptr) (o : Op) :
    (broadcastsOf (srv.offer p o)).Sublist (issued [o]) := by
  cases o with
  | act a =>
    cases a with
    | sendAll client msg =>
      show (broadcastsOf (if p ∈ srv.clients ∧ some p ≠ client then [(Origin.broadcast, msg)]
        else [])).Sublist [msg]
      by_cases h : p ∈ srv.clients ∧ some p ≠ client
      · rw [if_pos h]
        simp [broadcastsOf]
      · rw [if_neg h]
        exact List.nil_sublist _
    | startClient conn newId => exact List.nil_sublist _
    | close c => exact List.nil_sublist _
    | recv c => exact List.nil_sublist _
    | setName c name => exact List.nil_sublist _
  | joinSend c m =>
    show (broadcastsOf (if c = p then [(Origin.presence, m)] else [])).Sublist _
    by_cases h : c = p
    · rw [if_pos h]
      simp [broadcastsOf]
    · rw [if_neg h]
      exact List.nil_sublist _

/-- The broadcasts among the messages offered to `p` are a subsequence, in
the order of issue, of the broadcasts of the run. -/
theorem offered_broadcasts (p : Ptr) (ops : List Op) :
    ∀ srv : Server, (broadcastsOf (Server.offered p srv ops)).Sublist (issued ops) := by
  induction ops with
  | nil => intro srv; exact List.Sublist.refl _
  | cons o ops ih =>
    intro srv
    rw [issued_cons, Server.offered, broadcastsOf_append]
    apply List.Sublist.append (offer_broadcasts srv p o)
    cases srv.stepOp o with
    | none => exact List.nil_sublist _
    | some srv1 => exact ih srv1

/-- In a run without sends of `joinMessages`, only broadcasts are offered. -/
theorem offered_only_broadcasts (p : Ptr) (ops : List Op) :
    (∀ o ∈ ops, ∃ a, o = Op.act a) →
      ∀ srv : Server, ∀ x ∈ Server.offered p srv ops, x.1 = Origin.broadcast := by
  induction ops with
  | nil => intro _ srv x hx; cases hx
  | cons o ops ih =>
    intro hall srv x hx
    rw [Server.offered] at hx
    rcases List.mem_append.mp hx with hx | hx
    · obtain ⟨a, ha⟩ := hall o (List.mem_cons_self _ _)
      subst ha
      cases a with
      | sendAll client msg =>
        have hx2 : x ∈ (if p ∈ srv.clients ∧ some p ≠ client then [(Origin.broadcast, msg)]
            else []) := hx
        by_cases h : p ∈ srv.clients ∧ some p ≠ client
        · rw [if_pos h] at hx2
          rw [List.mem_singleton.mp hx2]
        · rw [if_neg h] at hx2
          cases hx2
      | startClient conn newId => cases hx
      | close c => cases hx
      | recv c => cases hx
      | setName c name => cases hx
    · cases hstep : srv.stepOp o with
      | none =>
        rw [hstep] at hx
        cases hx
      | some srv1 =>
        rw [hstep] at hx
        exact ih (fun o1 ho1 => hall o1 (List.mem_cons_of_mem _ ho1)) srv1 x hx

/-- C5 (as stated, refuted): with `alice` registered, a second connection
goes through the whole of `startClient` and its writer receives twice.  No
broadcast is issued, yet the writer of the new client receives two
messages, the zero message and the `user` message for `alice`: what a
session dequeues is not a subsequence of the broadcasts. -/
theorem presence_messages_dequeued :
    Server.received 1 srvAlice opsJoin =
      [⟨"", "", "", "", ""⟩, ⟨KindUser, "id-a", "alice", "10.0.0.1:4000", ""⟩] ∧
    issued opsJoin = [] ∧
    (srvAlice.runOps opsJoin).2 = false ∧
    ¬ (Server.received 1 srvAlice opsJoin).Sublist (issued opsJoin) := by
  decide

/-- C5 (amended): take a state that satisfies the registry invariant and
any sequence of operations (registrations, broadcasts, closes, receives by
the writers, name changes, sends of `joinMessages`), run up to its end or
to the first panic.  For every existing client `p` there is a list `lt` of
messages with their origin, a subsequence of the messages offered to `p` in
the order of the operations (a broadcast issued while `p` is registered and
not excluded, or a presence message sent into the queue of `p`), such that
the messages the writer of `p` received followed by the final queue of `p`
are the initial queue followed by the messages of `lt`.  The broadcasts in
`lt` are a subsequence, in issue order, of the broadcasts offered to `p`,
themselves a subsequence of all the broadcasts of the run.  When the run has
no send of `joinMessages`, it does not panic and all of `lt` is a
subsequence of the broadcasts; in particular for a broadcast of `m1`, then
receives, then a broadcast of `m2`, the messages of `lt` are a subsequence
of `[m1, m2]`: `m1` is never behind `m2`.  The same holds for a client
registered by the first operation of the run, whose queue starts empty. -/
theorem broadcast_order (srv : Server) (ops : List Op) (p : Ptr) (hinv : Inv srv)
    (hp : p < srv.next) :
    (∃ lt : List (Origin × Message),
      lt.Sublist (Server.offered p srv ops) ∧
      Server.received p srv ops ++ ((srv.runOps ops).1.heap p).send.buf =
        (srv.heap p).send.buf ++ lt.map Prod.snd ∧
      (broadcastsOf lt).Sublist (broadcastsOf (Server.offered p srv ops)) ∧
      (broadcastsOf (Server.offered p srv ops)).Sublist (issued ops) ∧
      ((∀ o ∈ ops, ∃ a, o = Op.act a) →
        (srv.runOps ops).2 = false ∧ (lt.map Prod.snd).Sublist (issued ops)) ∧
      (∀ e1 m1 e2 m2 (mid : List Ptr),
        ops = Op.act (Action.sendAll e1 m1) ::
          (mid.map (fun c => Op.act (Action.recv c)) ++ [Op.act (Action.sendAll e2 m2)]) →
        (lt.map Prod.snd).Sublist [m1, m2])) ∧
    (∀ conn newId, ∃ lt : List (Origin × Message),
      lt.Sublist (Server.offered srv.next srv (Op.act (Action.startClient conn newId) :: ops)) ∧
      Server.received srv.next srv (Op.act (Action.startClient conn newId) :: ops) ++
          ((srv.runOps (Op.act (Action.startClient conn newId) :: ops)).1.heap
            srv.next).send.buf =
        lt.map Prod.snd ∧
      (broadcastsOf lt).Sublist (issued (Op.act (Action.startClient conn newId) :: ops))) := by
  have hacts : ∀ (lt : List (Origin × Message)), lt.Sublist (Server.offered p srv ops) →
      (∀ o ∈ ops, ∃ a, o = Op.act a) → (lt.map Prod.snd).Sublist (issued ops) := by
    intro lt hl hall
    have hb : ∀ x ∈ lt, x.1 = Origin.broadcast :=
      fun x hx => offered_only_broadcasts p ops hall srv x (hl.subset hx)
    rw [← broadcastsOf_eq_map hb]
    exact (broadcastsOf_sublist hl).trans (offered_broadcasts p ops srv)
  refine ⟨?_, ?_⟩
  · obtain ⟨lt, hl, hq, hpanic⟩ := runOps_queue p ops srv hinv hp
    refine ⟨lt, hl, hq, broadcastsOf_sublist hl, offered_broadcasts p ops srv, ?_, ?_⟩
    · intro hall
      exact ⟨hpanic hall, hacts lt hl hall⟩
    · intro e1 m1 e2 m2 mid hops
      have hiss : issued ops = [m1, m2] := by
        rw [hops, issued_cons, issued_append, issued_map_recv]
        rfl
      have hall : ∀ o ∈ ops, ∃ a, o = Op.act a := by
        intro o ho
        rw [hops] at ho
        rcases List.mem_cons.mp ho with ho | ho
        · exact ⟨_, ho⟩
        · rcases List.mem_append.mp ho with ho | ho
          · obtain ⟨c, _, hc⟩ := List.mem_map.mp ho
            exact ⟨_, hc.symm⟩
          · exact ⟨_, List.mem_singleton.mp ho⟩
      rw [← hiss]
      exact hacts lt hl hall
  · intro conn newId
    obtain ⟨lt, hl, hq, _⟩ := runOps_queue srv.next ops (srv.startClient conn newId).1
      (inv_startClient hinv conn newId) (Nat.lt_succ_self _)
    have hempty : (((srv.startClient conn newId).1).heap srv.next).send.buf = [] := by
      show (Function.update srv.heap srv.next _ srv.next).send.buf = []
      rw [Function.update_same]
    rw [hempty, List.nil_append] at hq
    refine ⟨lt, hl, hq, ?_⟩
    exact (broadcastsOf_sublist hl).trans
      (offered_broadcasts srv.next ops (srv.startClient conn newId).1)

/-- Witness of C5 (amended): client 0 of the two-client state during
`opsDemo`. -/
theorem broadcast_order_witness :
    Inv srvTwo ∧ 0 < srvTwo.next ∧
    ((∃ lt : List (Origin × Message),
      lt.Sublist (Server.offered 0 srvTwo opsDemo) ∧
      Server.received 0 srvTwo opsDemo ++ ((srvTwo.runOps opsDemo).1.heap 0).send.buf =
        (srvTwo.heap 0).send.buf ++ lt.map Prod.snd ∧
      (broadcastsOf lt).Sublist (broadcastsOf (Server.offered 0 srvTwo opsDemo)) ∧
      (broadcastsOf (Server.offered 0 srvTwo opsDemo)).Sublist (issued opsDemo) ∧
      ((∀ o ∈ opsDemo, ∃ a, o = Op.act a) →
        (srvTwo.runOps opsDemo).2 = false ∧ (lt.map Prod.snd).Sublist (issued opsDemo)) ∧
      (∀ e1 m1 e2 m2 (mid : List Ptr),
        opsDemo = Op.act (Action.sendAll e1 m1) ::
          (mid.map (fun c => Op.act (Action.recv c)) ++ [Op.act (Action.sendAll e2 m2)]) →
        (lt.map Prod.snd).Sublist [m1, m2])) ∧
    (∀ conn newId, ∃ lt : List (Origin × Message),
      lt.Sublist
        (Server.offered srvTwo.next srvTwo (Op.act (Action.startClient conn newId) :: opsDemo)) ∧
      Server.received srvTwo.next srvTwo (Op.act (Action.startClient conn newId) :: opsDemo) ++
          ((srvTwo.runOps (Op.act (Action.startClient conn newId) :: opsDemo)).1.heap
            srvTwo.next).send.buf =
        lt.map Prod.snd ∧
      (broadcastsOf lt).Sublist (issued (Op.act (Action.startClient conn newId) :: opsDemo)))) :=
  have hinv : Inv srvTwo :=
    inv_startClient (inv_setName (inv_startClient inv_new _ _) _ _) _ _
  ⟨hinv, by decide, broadcast_order srvTwo opsDemo 0 hinv (by decide)⟩

end Cdojo
